import Mathlib

/-!
Verification of the Prime Labyrinth engine.

This file is a shallow embedding of `labyrinth_engine.py` (prime table,
neighbour/door derivation, row building) and `labyrinth_search.py` (the
walk and exploration routines), together with theorems settling the
specification claims about them.

Embedding conventions:
* The Python module-level prime table (`PRIMES`, with `PRIME_SET` for
  membership tests and `PRIME_INDEX` for value-to-index lookup) is global
  state; every function reading it takes the table `T : List Nat` as an
  explicit first argument, and the program's table is the top-level
  definition `PRIMES = primes_up_to MAX_N`.
* Code that can raise a Python exception (the `PRIME_INDEX[p]` dictionary
  lookup, reached through `next_prime` and `prev_prime`) is embedded with
  `Option`: `none` is the exceptional outcome and propagates to callers.
* Unbounded `while` loops whose termination is enforced by a step budget
  are embedded with a structural `fuel` parameter; the wrapper supplies
  fuel provably larger than the possible iteration count.
* The boolean sieve array is encoded as the set of indices already marked
  composite, stored in the bits of a natural number `m`: `sieve[i]` is
  `True` iff `m.testBit i = false`, and `sieve[k] = False` is `m ||| 2 ^ k`.
-/

set_option exponentiation.threshold 5000
set_option maxRecDepth 1000000
set_option synthInstance.maxSize 2048

/-- Rooms are triples of naturals; the canonical form is sorted ascending. -/
abbrev Room := Nat × Nat × Nat

/-- Inner marking pass of the sieve in `primes_up_to`: Python
`for k in range(p * p, n + 1, p): sieve[k] = False`, on the bit-set
encoding of the boolean array.  `fuel` bounds the iterations structurally;
the caller passes `n + 1`, which suffices since `k` grows by `p ≥ 2`. -/
def markFrom (n p : Nat) : Nat → Nat → Nat → Nat
  | 0, _, m => m
  | fuel+1, k, m => if k ≤ n then markFrom n p fuel (k + p) (m ||| 2 ^ k) else m

/-- Outer loop of `primes_up_to`: Python `while p * p <= n`, advancing `p`
by one and marking multiples of `p` when `sieve[p]` is still `True`. -/
def sieveLoop (n : Nat) : Nat → Nat → Nat → Nat
  | 0, _, m => m
  | fuel+1, p, m =>
    if p * p ≤ n then
      sieveLoop n fuel (p + 1) (if m.testBit p then m else markFrom n p (n + 1) (p * p) m)
    else m

/-- Python `primes_up_to(n)`: sieve of Eratosthenes over `[0, n]`,
returning the ascending list of unmarked indices.  For `n < 2` it returns
the empty list (no error is raised).  The initial mask `3` encodes
`sieve[0:2] = [False, False]`. -/
def primes_up_to (n : Nat) : List Nat :=
  if n < 2 then []
  else
    let m := sieveLoop n (n + 1) 2 3
    (List.range (n + 1)).filter (fun i => !(m.testBit i))

/-- Python module constant `MAX_N = 2000`. -/
def MAX_N : Nat := 2000

/-- Python module-level table `PRIMES = primes_up_to(MAX_N)`. -/
def PRIMES : List Nat := primes_up_to MAX_N

/-- Python `next_prime(p)`.  The `PRIME_INDEX[p]` dictionary lookup is
`findIdx?` on the table (`none` = `KeyError`); on success the result is
`None` when `idx + 1 >= len(PRIMES)` and `PRIMES[idx + 1]` otherwise. -/
def next_prime (T : List Nat) (p : Nat) : Option (Option Nat) :=
  match T.findIdx? (· == p) with
  | none => none
  | some idx => some (if idx + 1 ≥ T.length then none else some (T.getD (idx + 1) 0))

/-- Python `prev_prime(p)`: `2` saturates to itself; otherwise the lookup
`PRIME_INDEX[p]` can raise (`none`), and the result is `PRIMES[idx - 1]` —
including Python's negative-index wraparound to the last element when
`idx = 0` (unreachable on the actual table, whose head is `2`). -/
def prev_prime (T : List Nat) (p : Nat) : Option Nat :=
  if p = 2 then some 2
  else
    match T.findIdx? (· == p) with
    | none => none
    | some idx => some (if idx = 0 then T.getLastD 0 else T.getD (idx - 1) 0)

/-- Python `neighbours(p)`: `[prev_prime(p), p]` plus `next_prime(p)` when
that is not `None`; an exception in either lookup propagates. -/
def neighbours (T : List Nat) (p : Nat) : Option (List Nat) :=
  match prev_prime T p with
  | none => none
  | some pr =>
    match next_prime T p with
    | none => none
    | some onxt => some ([pr, p] ++ onxt.toList)

/-- Strict lexicographic order on triples, as Python compares tuples. -/
def lexLt (x y : Room) : Bool :=
  decide (x.1 < y.1 ∨ (x.1 = y.1 ∧ (x.2.1 < y.2.1 ∨ (x.2.1 = y.2.1 ∧ x.2.2 < y.2.2))))

/-- Python `tuple(sorted((a, b, c)))`: the ascending rearrangement. -/
def sort3 (t : Room) : Room :=
  let a := t.1
  let b := t.2.1
  let c := t.2.2
  if a ≤ b then
    if b ≤ c then (a, b, c)
    else if a ≤ c then (a, c, b)
    else (c, a, b)
  else
    if a ≤ c then (b, a, c)
    else if b ≤ c then (b, c, a)
    else (c, b, a)

/-- Insertion into a strictly `lexLt`-sorted list, skipping an element
already present.  Folding this over the candidate doors realises Python's
`sorted(doors)` where `doors` is a `set`: the strictly ascending
enumeration of the distinct candidates. -/
def insert_door (d : Room) : List Room → List Room
  | [] => [d]
  | e :: rest =>
    if lexLt d e then d :: e :: rest
    else if d = e then e :: rest
    else e :: insert_door d rest

/-- Python `doors_out_of(hset, target_prime)`: all sorted triples
`(aa, bb, cc)` with each component ranging over the `neighbours` of the
corresponding coordinate and `aa + bb + cc == target_prime`, collected
into a sorted duplicate-free list.  An exception in `neighbours`
propagates. -/
def doors_out_of (T : List Nat) (hset : Room) (target_prime : Nat) : Option (List Room) :=
  match neighbours T hset.1 with
  | none => none
  | some la =>
    match neighbours T hset.2.1 with
    | none => none
    | some lb =>
      match neighbours T hset.2.2 with
      | none => none
      | some lc =>
        some ((la.flatMap fun aa => lb.flatMap fun bb => lc.filterMap fun cc =>
          if aa + bb + cc = target_prime then some (sort3 (aa, bb, cc)) else none).foldl
            (fun acc d => insert_door d acc) [])

/-- Inner loop of `build_row` (`for j in range(i, len(PRIMES))`), running
over the suffix of the table that starts at the current outer element `a`,
with the two `break` conditions `a + b > p` and `c < b`, and the
`c in PRIME_SET` membership filter. -/
def innerLoop (T : List Nat) (p a : Nat) : List Nat → List Room
  | [] => []
  | b :: rest =>
    if a + b > p then []
    else if p - a - b < b then []
    else if T.contains (p - a - b) then (a, b, p - a - b) :: innerLoop T p a rest
    else innerLoop T p a rest

/-- Outer loop of `build_row` (`for i, a in enumerate(PRIMES)`), with the
`break` condition `a > p`; the inner loop receives the suffix starting at
`a` itself. -/
def tripleLoop (T : List Nat) (p : Nat) : List Nat → List Room
  | [] => []
  | a :: rest =>
    if a > p then []
    else innerLoop T p a (a :: rest) ++ tripleLoop T p rest

/-- Door computation of `build_row`'s loop body: each enumerated triple
`h` is paired with `doors_out_of(h, nxt)`; an exception aborts the whole
row construction. -/
def attach_doors (T : List Nat) (nxt : Nat) : List Room → Option (List (Room × List Room))
  | [] => some []
  | h :: rest =>
    match doors_out_of T h nxt with
    | none => none
    | some ds =>
      match attach_doors T nxt rest with
      | none => none
      | some row => some ((h, ds) :: row)

/-- Python `build_row(p)`: `([], None)` when `p` has no successor in the
table; a `KeyError` in `next_prime` (that is, `p` not in the table)
propagates; otherwise the enumerated rooms, each with its door list, and
the successor prime. -/
def build_row (T : List Nat) (p : Nat) : Option (List (Room × List Room) × Option Nat) :=
  match next_prime T p with
  | none => none
  | some none => some ([], none)
  | some (some nxt) =>
    match attach_doors T nxt (tripleLoop T p T) with
    | none => none
    | some row => some (row, some nxt)

/-- Room lookup inside a walk step: the linear scan
`for rh, ds in row: if rh == h: doors = ds; break`, with `none` for a room
absent from the row. -/
def find_doors (h : Room) : List (Room × List Room) → Option (List Room)
  | [] => none
  | (rh, ds) :: rest => if rh = h then some ds else find_doors h rest

/-- Loop body of Python `leftmost_walk`: append the current room, bump the
step counter, return on the cap or on a terminal condition, else move to
the lexicographically smallest door.  `fuel` bounds the iterations
structurally; `leftmost_walk` passes `max_steps + 1`, which is always
enough since the walk returns once `steps > max_steps`. -/
def leftmost_loop (T : List Nat) (max_steps : Nat) :
    Nat → Nat → Room → List (Nat × Room) → Nat → Option (List (Nat × Room) × String)
  | 0, _, _, _, _ => none
  | fuel+1, p, h, path, steps =>
    let path := path ++ [(p, h)]
    let steps := steps + 1
    if steps > max_steps then some (path, "max_steps")
    else
      match build_row T p with
      | none => none
      | some (row, onxt) =>
        match onxt with
        | none => some (path, "no_next_prime")
        | some nxt =>
          match find_doors h row with
          | none => some (path, "h_not_found")
          | some doors =>
            match doors with
            | [] => some (path, "dead_end")
            | d :: _ => leftmost_loop T max_steps fuel nxt d path steps

/-- Python `leftmost_walk(start_p, start_h, max_steps)`. -/
def leftmost_walk (T : List Nat) (start_p : Nat) (start_h : Room) (max_steps : Nat) :
    Option (List (Nat × Room) × String) :=
  leftmost_loop T max_steps (max_steps + 1) start_p start_h [] 0

/-- Loop body of Python `random_walk`: identical to `leftmost_loop` except
that the next room is drawn from the door list by the injected random
source, embedded as a choice function applied to the (nonempty) list. -/
def random_loop (T : List Nat) (choice : List Room → Room) (max_steps : Nat) :
    Nat → Nat → Room → List (Nat × Room) → Nat → Option (List (Nat × Room) × String)
  | 0, _, _, _, _ => none
  | fuel+1, p, h, path, steps =>
    let path := path ++ [(p, h)]
    let steps := steps + 1
    if steps > max_steps then some (path, "max_steps")
    else
      match build_row T p with
      | none => none
      | some (row, onxt) =>
        match onxt with
        | none => some (path, "no_next_prime")
        | some nxt =>
          match find_doors h row with
          | none => some (path, "h_not_found")
          | some doors =>
            match doors with
            | [] => some (path, "dead_end")
            | _ :: _ => random_loop T choice max_steps fuel nxt (choice doors) path steps

/-- Python `random_walk(start_p, start_h, max_steps, rng)`, with the
random source embedded as the choice function. -/
def random_walk (T : List Nat) (choice : List Room → Room) (start_p : Nat) (start_h : Room)
    (max_steps : Nat) : Option (List (Nat × Room) × String) :=
  random_loop T choice max_steps (max_steps + 1) start_p start_h [] 0

/-- Stack frame of `depth_first_explore`: Python's
`{"p": .., "h": .., "nxt": .., "doors": .., "i": ..}` dictionary. -/
structure Frame where
  p : Nat
  h : Room
  nxt : Option Nat
  doors : List Room
  i : Nat

/-- One iteration of the `while stack` body of Python
`depth_first_explore` (run when the step budget is not yet exhausted),
acting on the decomposed stack `frame :: rest` and the three counters.
Taking a door advances the frame's index and the step counter; a door
whose target layer is `None` or beyond `max_prime` is a wall (no push);
otherwise the target room's frame is pushed and the node count and depth
high-water mark are updated; an exhausted frame is popped. -/
def dfsStep (T : List Nat) (max_prime : Option Nat) (frame : Frame) (rest : List Frame)
    (total_steps total_nodes max_depth : Nat) : Option (List Frame × Nat × Nat × Nat) :=
  if frame.i < frame.doors.length then
    let target_h := frame.doors.getD frame.i (0, 0, 0)
    let frame' := { frame with i := frame.i + 1 }
    let total_steps := total_steps + 1
    match frame.nxt with
    | none => some (frame' :: rest, total_steps, total_nodes, max_depth)
    | some nxt =>
      if (match max_prime with
          | none => false
          | some m => decide (nxt > m)) then
        some (frame' :: rest, total_steps, total_nodes, max_depth)
      else
        match build_row T nxt with
        | none => none
        | some (next_row, next_nxt) =>
          match find_doors target_h next_row with
          | none => some (frame' :: rest, total_steps, total_nodes, max_depth)
          | some target_doors =>
            let stack :=
              { p := nxt, h := target_h, nxt := next_nxt, doors := target_doors, i := 0 } ::
                frame' :: rest
            some (stack, total_steps, total_nodes + 1,
              if stack.length > max_depth then stack.length else max_depth)
  else
    some (rest, total_steps, total_nodes, max_depth)

/-- Summary dictionary returned by `depth_first_explore`. -/
structure Summary where
  status : String
  total_steps : Nat
  total_nodes_visited : Nat
  max_depth : Nat

/-- The `while stack` loop of Python `depth_first_explore`, via `dfsStep`;
`fuel` bounds the iterations structurally (each iteration either counts a
step, which the budget caps, or pops the stack). -/
def dfsLoop (T : List Nat) (max_total_steps : Nat) (max_prime : Option Nat) :
    Nat → List Frame → Nat → Nat → Nat → Option Summary
  | _, [], total_steps, total_nodes, max_depth =>
    some ⟨"completed", total_steps, total_nodes, max_depth⟩
  | 0, _ :: _, _, _, _ => none
  | fuel+1, frame :: rest, total_steps, total_nodes, max_depth =>
    if total_steps ≥ max_total_steps then
      some ⟨"max_steps", total_steps, total_nodes, max_depth⟩
    else
      match dfsStep T max_prime frame rest total_steps total_nodes max_depth with
      | none => none
      | some (stack, s, n, d) => dfsLoop T max_total_steps max_prime fuel stack s n d

/-- Python `depth_first_explore(start_p, start_h, max_total_steps,
max_prime)`: build the first row, fail with `start_invalid` when the start
room is absent, else run the stack loop from the initial frame. -/
def depth_first_explore (T : List Nat) (start_p : Nat) (start_h : Room)
    (max_total_steps : Nat) (max_prime : Option Nat) : Option Summary :=
  match build_row T start_p with
  | none => none
  | some (row0, nxt0) =>
    match find_doors start_h row0 with
    | none => some ⟨"start_invalid", 0, 0, 0⟩
    | some doors0 =>
      dfsLoop T max_total_steps max_prime (2 * max_total_steps + 3)
        [{ p := start_p, h := start_h, nxt := nxt0, doors := doors0, i := 0 }] 0 1 1

/-- The value of `PRIMES` (the 303 primes up to `MAX_N = 2000`), proved
once in `PRIMES_eq` and used to evaluate concrete table queries cheaply. -/
def primesLit : List Nat :=
  [2, 3, 5, 7, 11, 13, 17, 19, 23, 29, 31, 37, 41, 43, 47, 53, 59, 61, 67, 71, 73, 79, 83,
   89, 97, 101, 103, 107, 109, 113, 127, 131, 137, 139, 149, 151, 157, 163, 167, 173, 179,
   181, 191, 193, 197, 199, 211, 223, 227, 229, 233, 239, 241, 251, 257, 263, 269, 271,
   277, 281, 283, 293, 307, 311, 313, 317, 331, 337, 347, 349, 353, 359, 367, 373, 379,
   383, 389, 397, 401, 409, 419, 421, 431, 433, 439, 443, 449, 457, 461, 463, 467, 479,
   487, 491, 499, 503, 509, 521, 523, 541, 547, 557, 563, 569, 571, 577, 587, 593, 599,
   601, 607, 613, 617, 619, 631, 641, 643, 647, 653, 659, 661, 673, 677, 683, 691, 701,
   709, 719, 727, 733, 739, 743, 751, 757, 761, 769, 773, 787, 797, 809, 811, 821, 823,
   827, 829, 839, 853, 857, 859, 863, 877, 881, 883, 887, 907, 911, 919, 929, 937, 941,
   947, 953, 967, 971, 977, 983, 991, 997, 1009, 1013, 1019, 1021, 1031, 1033, 1039, 1049,
   1051, 1061, 1063, 1069, 1087, 1091, 1093, 1097, 1103, 1109, 1117, 1123, 1129, 1151,
   1153, 1163, 1171, 1181, 1187, 1193, 1201, 1213, 1217, 1223, 1229, 1231, 1237, 1249,
   1259, 1277, 1279, 1283, 1289, 1291, 1297, 1301, 1303, 1307, 1319, 1321, 1327, 1361,
   1367, 1373, 1381, 1399, 1409, 1423, 1427, 1429, 1433, 1439, 1447, 1451, 1453, 1459,
   1471, 1481, 1483, 1487, 1489, 1493, 1499, 1511, 1523, 1531, 1543, 1549, 1553, 1559,
   1567, 1571, 1579, 1583, 1597, 1601, 1607, 1609, 1613, 1619, 1621, 1627, 1637, 1657,
   1663, 1667, 1669, 1693, 1697, 1699, 1709, 1721, 1723, 1733, 1741, 1747, 1753, 1759,
   1777, 1783, 1787, 1789, 1801, 1811, 1823, 1831, 1847, 1861, 1867, 1871, 1873, 1877,
   1879, 1889, 1901, 1907, 1913, 1931, 1933, 1949, 1951, 1973, 1979, 1987, 1993, 1997,
   1999]

set_option maxRecDepth 100000 in
/-- Computed value of the program's prime table. -/
theorem PRIMES_eq : PRIMES = primesLit := by decide

/-! ### Structural facts about the table -/

/-- The sieve output is strictly increasing: it is a filter of `range`. -/
theorem primes_up_to_sorted (n : Nat) : (primes_up_to n).Pairwise (· < ·) := by
  unfold primes_up_to
  split
  · exact List.Pairwise.nil
  · exact (List.pairwise_lt_range _).sublist (List.filter_sublist _)

theorem PRIMES_sorted : PRIMES.Pairwise (· < ·) := primes_up_to_sorted MAX_N

theorem PRIMES_nodup : PRIMES.Nodup := PRIMES_sorted.imp Nat.ne_of_lt

theorem two_mem_PRIMES : 2 ∈ PRIMES := by rw [PRIMES_eq]; decide

/-- List `contains` agrees with membership on `List Nat`. -/
theorem contains_iff_mem (T : List Nat) (c : Nat) : T.contains c = true ↔ c ∈ T := by
  simp [List.contains]

/-- The value-to-index lookup finds exactly the position of a table entry
(on a duplicate-free table). -/
theorem findIdx?_of_getElem? {T : List Nat} (hnd : T.Nodup) {i : Nat} {p : Nat}
    (h : T[i]? = some p) : T.findIdx? (· == p) = some i := by
  obtain ⟨hi, rfl⟩ := List.getElem?_eq_some_iff.mp h
  rw [List.findIdx?_eq_some_iff_getElem]
  refine ⟨hi, by simp, ?_⟩
  intro j hji
  have hj : j < T.length := Nat.lt_trans hji hi
  have : T[j] ≠ T[i] := by
    have := List.pairwise_iff_getElem.mp hnd j i hj hi hji
    exact this
  simp [hj, this]

theorem findIdx?_eq_none_of_not_mem {T : List Nat} {p : Nat} (h : p ∉ T) :
    T.findIdx? (· == p) = none := by
  rw [List.findIdx?_eq_none_iff]
  intro x hx
  simp only [beq_eq_false_iff_ne, ne_eq]
  rintro rfl
  exact h hx

/-- Specification of `next_prime` on table entries: the successor slot. -/
theorem next_prime_eq {T : List Nat} (hnd : T.Nodup) {i p : Nat} (h : T[i]? = some p) :
    next_prime T p = some (T[i + 1]?) := by
  unfold next_prime
  rw [findIdx?_of_getElem? hnd h]
  by_cases hlen : i + 1 ≥ T.length
  · simp [hlen, List.getElem?_eq_none hlen]
  · have hlt : i + 1 < T.length := Nat.lt_of_not_le hlen
    simp [hlen, List.getD_eq_getElem?_getD, List.getElem?_eq_getElem hlt]

theorem next_prime_eq_none {T : List Nat} {p : Nat} (h : p ∉ T) : next_prime T p = none := by
  unfold next_prime
  rw [findIdx?_eq_none_of_not_mem h]

/-- A successor returned by `next_prime` is itself a table entry. -/
theorem next_prime_mem {T : List Nat} {p q : Nat} (h : next_prime T p = some (some q)) :
    q ∈ T := by
  unfold next_prime at h
  cases hidx : T.findIdx? (· == p) with
  | none => rw [hidx] at h; exact absurd h (by simp)
  | some idx =>
    rw [hidx] at h
    by_cases hlen : idx + 1 ≥ T.length
    · simp [hlen] at h
    · have hlt : idx + 1 < T.length := Nat.lt_of_not_le hlen
      simp only [hlen, if_false, Option.some.injEq] at h
      rw [List.getD_eq_getElem?_getD, List.getElem?_eq_getElem hlt] at h
      simp only [Option.getD_some, Option.some.injEq] at h
      exact h ▸ List.getElem_mem hlt

/-- The successor lookup succeeds on every table entry. -/
theorem next_prime_isSome {T : List Nat} (hnd : T.Nodup) {p : Nat} (hp : p ∈ T) :
    ∃ o, next_prime T p = some o := by
  obtain ⟨i, hi⟩ := List.mem_iff_getElem?.mp hp
  exact ⟨_, next_prime_eq hnd hi⟩

/-- The predecessor lookup succeeds on every table entry and its result is a table
entry, provided `2` is in the table (for the saturating branch). -/
theorem prev_prime_mem {T : List Nat} (h2 : 2 ∈ T) {p : Nat} (hp : p ∈ T) :
    ∃ r, prev_prime T p = some r ∧ r ∈ T := by
  unfold prev_prime
  by_cases hp2 : p = 2
  · exact ⟨2, by simp [hp2], h2⟩
  · obtain ⟨i, hi⟩ := List.mem_iff_getElem?.mp hp
    have hidx : ∃ idx, T.findIdx? (· == p) = some idx := by
      rcases hfi : T.findIdx? (· == p) with _ | idx
      · rw [List.findIdx?_eq_none_iff] at hfi
        have := hfi p hp
        simp at this
      · exact ⟨idx, rfl⟩
    obtain ⟨idx, hfi⟩ := hidx
    rw [hfi]
    have hidxlt : idx < T.length := (List.findIdx?_eq_some_iff_getElem.mp hfi).1
    have hne : T ≠ [] := by
      intro hnil
      rw [hnil] at hp
      exact absurd hp (List.not_mem_nil p)
    by_cases h0 : idx = 0
    · refine ⟨T.getLastD 0, by simp [hp2, h0], ?_⟩
      rw [List.getLastD_eq_getLast?, List.getLast?_eq_getLast T hne]
      exact List.getLast_mem hne
    · refine ⟨T.getD (idx - 1) 0, by simp [hp2, h0], ?_⟩
      have : idx - 1 < T.length := Nat.lt_of_le_of_lt (Nat.sub_le idx 1) hidxlt
      rw [List.getD_eq_getElem?_getD, List.getElem?_eq_getElem this]
      exact List.getElem_mem this

/-- The neighbour computation succeeds on every table entry and returns table entries. -/
theorem neighbours_spec {T : List Nat} (hnd : T.Nodup) (h2 : 2 ∈ T) {p : Nat} (hp : p ∈ T) :
    ∃ l, neighbours T p = some l ∧ ∀ x ∈ l, x ∈ T := by
  obtain ⟨r, hr, hrT⟩ := prev_prime_mem h2 hp
  obtain ⟨o, ho⟩ := next_prime_isSome hnd hp
  refine ⟨[r, p] ++ o.toList, ?_, ?_⟩
  · unfold neighbours
    rw [hr, ho]
  · intro x hx
    rcases List.mem_append.mp hx with hx | hx
    · rcases List.mem_cons.mp hx with rfl | hx
      · exact hrT
      · rcases List.mem_cons.mp hx with rfl | hx
        · exact hp
        · exact absurd hx (List.not_mem_nil x)
    · cases o with
      | none => exact absurd hx (List.not_mem_nil x)
      | some q =>
        obtain ⟨i, hi⟩ := List.mem_iff_getElem?.mp hp
        have := next_prime_eq hnd hi
        rw [ho] at this
        have hq : some q = T[i + 1]? := Option.some.inj this
        simp only [Option.toList_some, List.mem_singleton] at hx
        subst hx
        exact List.mem_iff_getElem?.mpr ⟨i + 1, hq.symm⟩

/-! ### Lexicographic order, canonicalisation, sorted insertion -/

theorem lexLt_iff (x y : Room) :
    lexLt x y = true ↔
      x.1 < y.1 ∨ (x.1 = y.1 ∧ (x.2.1 < y.2.1 ∨ (x.2.1 = y.2.1 ∧ x.2.2 < y.2.2))) := by
  simp [lexLt]

theorem lexLt_ne {x y : Room} (h : lexLt x y = true) : x ≠ y := by
  obtain ⟨x1, x2, x3⟩ := x
  obtain ⟨y1, y2, y3⟩ := y
  rw [lexLt_iff] at h
  simp only [Prod.mk.injEq, ne_eq, not_and]
  dsimp only at h
  omega

theorem lexLt_trans {x y z : Room} (h1 : lexLt x y = true) (h2 : lexLt y z = true) :
    lexLt x z = true := by
  obtain ⟨x1, x2, x3⟩ := x
  obtain ⟨y1, y2, y3⟩ := y
  obtain ⟨z1, z2, z3⟩ := z
  rw [lexLt_iff] at h1 h2 ⊢
  dsimp only at h1 h2 ⊢
  omega

theorem lexLt_total {x y : Room} (hne : x ≠ y) (h : ¬lexLt x y = true) : lexLt y x = true := by
  obtain ⟨x1, x2, x3⟩ := x
  obtain ⟨y1, y2, y3⟩ := y
  rw [lexLt_iff] at h ⊢
  simp only [Prod.mk.injEq, ne_eq, not_and] at hne
  dsimp only at h ⊢
  omega

theorem sort3_sorted (t : Room) : (sort3 t).1 ≤ (sort3 t).2.1 ∧ (sort3 t).2.1 ≤ (sort3 t).2.2 := by
  obtain ⟨a, b, c⟩ := t
  simp only [sort3]
  split_ifs <;> dsimp only <;> omega

theorem sort3_sum (t : Room) : (sort3 t).1 + (sort3 t).2.1 + (sort3 t).2.2 = t.1 + t.2.1 + t.2.2 := by
  obtain ⟨a, b, c⟩ := t
  simp only [sort3]
  split_ifs <;> dsimp only <;> omega

/-- Each coordinate of the sorted triple is one of the original three. -/
theorem sort3_coords (t : Room) :
    ((sort3 t).1 = t.1 ∨ (sort3 t).1 = t.2.1 ∨ (sort3 t).1 = t.2.2) ∧
    ((sort3 t).2.1 = t.1 ∨ (sort3 t).2.1 = t.2.1 ∨ (sort3 t).2.1 = t.2.2) ∧
    ((sort3 t).2.2 = t.1 ∨ (sort3 t).2.2 = t.2.1 ∨ (sort3 t).2.2 = t.2.2) := by
  obtain ⟨a, b, c⟩ := t
  simp only [sort3]
  split_ifs <;> simp

/-- A triple that is already ascending is fixed by `sort3`. -/
theorem sort3_of_sorted {t : Room} (h1 : t.1 ≤ t.2.1) (h2 : t.2.1 ≤ t.2.2) : sort3 t = t := by
  obtain ⟨a, b, c⟩ := t
  simp only [sort3]
  dsimp only at h1 h2
  rw [if_pos h1, if_pos h2]

theorem mem_insert_door (d x : Room) : ∀ (l : List Room), x ∈ insert_door d l ↔ x = d ∨ x ∈ l := by
  intro l
  induction l with
  | nil => simp [insert_door]
  | cons e rest ih =>
    simp only [insert_door]
    split_ifs with h1 h2
    · simp [List.mem_cons]
    · subst h2
      simp only [List.mem_cons]
      tauto
    · simp only [List.mem_cons, ih]
      tauto

theorem pairwise_insert_door (d : Room) {l : List Room}
    (hl : l.Pairwise (fun u v => lexLt u v = true)) :
    (insert_door d l).Pairwise (fun u v => lexLt u v = true) := by
  induction l with
  | nil => simp [insert_door]
  | cons e rest ih =>
    rw [List.pairwise_cons] at hl
    obtain ⟨he, hrest⟩ := hl
    simp only [insert_door]
    split_ifs with h1 h2
    · rw [List.pairwise_cons]
      refine ⟨?_, List.pairwise_cons.mpr ⟨he, hrest⟩⟩
      intro x hx
      rcases List.mem_cons.mp hx with rfl | hx
      · exact h1
      · exact lexLt_trans h1 (he x hx)
    · exact List.pairwise_cons.mpr ⟨he, hrest⟩
    · rw [List.pairwise_cons]
      refine ⟨?_, ih hrest⟩
      intro x hx
      rcases (mem_insert_door d x rest).mp hx with rfl | hx
      · exact lexLt_total h2 h1
      · exact he x hx

theorem mem_foldl_insert (x : Room) :
    ∀ (cands : List Room) (acc : List Room),
      x ∈ cands.foldl (fun acc d => insert_door d acc) acc ↔ x ∈ acc ∨ x ∈ cands := by
  intro cands
  induction cands with
  | nil => simp
  | cons c rest ih =>
    intro acc
    simp only [List.foldl_cons, ih, mem_insert_door, List.mem_cons]
    tauto

theorem pairwise_foldl_insert :
    ∀ (cands : List Room) {acc : List Room},
      acc.Pairwise (fun u v => lexLt u v = true) →
      (cands.foldl (fun acc d => insert_door d acc) acc).Pairwise (fun u v => lexLt u v = true) := by
  intro cands
  induction cands with
  | nil => intro acc h; exact h
  | cons c rest ih =>
    intro acc h
    exact ih (pairwise_insert_door c h)

/-! ### Characterisation of the row enumeration -/

/-- Membership in the inner loop's output: exactly the suffix elements `b`
not cut off by a `break`, paired with `c = p - a - b` when that is a table
member at least `b`. -/
theorem mem_innerLoop {T : List Nat} {p a : Nat} :
    ∀ {bs : List Nat}, bs.Pairwise (· < ·) → ∀ {x : Room},
      (x ∈ innerLoop T p a bs ↔
        ∃ b ∈ bs, a + b ≤ p ∧ b ≤ p - a - b ∧ (p - a - b) ∈ T ∧ x = (a, b, p - a - b)) := by
  intro bs
  induction bs with
  | nil => intro _ x; simp [innerLoop]
  | cons b rest ih =>
    intro hpw x
    rw [List.pairwise_cons] at hpw
    obtain ⟨hb, hrest⟩ := hpw
    simp only [innerLoop]
    split_ifs with h1 h2 h3
    · refine iff_of_false (List.not_mem_nil x) ?_
      rintro ⟨b', hb', hab', hcb', hcT, rfl⟩
      rcases List.mem_cons.mp hb' with rfl | hb'
      · omega
      · have := hb b' hb'; omega
    · refine iff_of_false (List.not_mem_nil x) ?_
      rintro ⟨b', hb', hab', hcb', hcT, rfl⟩
      rcases List.mem_cons.mp hb' with rfl | hb'
      · omega
      · have := hb b' hb'; omega
    · rw [List.mem_cons, ih hrest]
      constructor
      · rintro (rfl | ⟨b', hb', hab', hcb', hcT, rfl⟩)
        · exact ⟨b, List.mem_cons_self b rest, by omega, by omega,
            (contains_iff_mem T _).mp h3, rfl⟩
        · exact ⟨b', List.mem_cons_of_mem b hb', hab', hcb', hcT, rfl⟩
      · rintro ⟨b', hb', hab', hcb', hcT, rfl⟩
        rcases List.mem_cons.mp hb' with rfl | hb'
        · exact Or.inl rfl
        · exact Or.inr ⟨b', hb', hab', hcb', hcT, rfl⟩
    · rw [ih hrest]
      constructor
      · rintro ⟨b', hb', hab', hcb', hcT, rfl⟩
        exact ⟨b', List.mem_cons_of_mem b hb', hab', hcb', hcT, rfl⟩
      · rintro ⟨b', hb', hab', hcb', hcT, rfl⟩
        rcases List.mem_cons.mp hb' with rfl | hb'
        · exact absurd ((contains_iff_mem T _).mpr hcT) (by simpa using h3)
        · exact ⟨b', hb', hab', hcb', hcT, rfl⟩

/-- Membership in the outer loop's output over a strictly increasing list:
exactly the triples `(a, b, p - a - b)` with `a ≤ b` drawn from the list,
`a + b ≤ p`, `b ≤ p - a - b`, and `p - a - b` in the table — the `break`
conditions never cut off a qualifying triple. -/
theorem mem_tripleLoop {T : List Nat} {p : Nat} :
    ∀ {L : List Nat}, L.Pairwise (· < ·) → ∀ {x : Room},
      (x ∈ tripleLoop T p L ↔
        ∃ a ∈ L, ∃ b ∈ L, a ≤ b ∧ a + b ≤ p ∧ b ≤ p - a - b ∧ (p - a - b) ∈ T ∧
          x = (a, b, p - a - b)) := by
  intro L
  induction L with
  | nil => intro _ x; simp [tripleLoop]
  | cons a rest ih =>
    intro hpw x
    have hpwc := List.pairwise_cons.mp hpw
    obtain ⟨ha, hrest⟩ := hpwc
    simp only [tripleLoop]
    split_ifs with h1
    · refine iff_of_false (List.not_mem_nil x) ?_
      rintro ⟨a', ha', b', hb', hab, habp, hbc, hcT, rfl⟩
      rcases List.mem_cons.mp ha' with rfl | ha'
      · omega
      · have := ha a' ha'; omega
    · rw [List.mem_append, mem_innerLoop hpw, ih hrest]
      constructor
      · rintro (⟨b', hb', hab', hcb', hcT, rfl⟩ | ⟨a', ha', b', hb', hab, habp, hbc, hcT, rfl⟩)
        · refine ⟨a, List.mem_cons_self a rest, b', hb', ?_, hab', hcb', hcT, rfl⟩
          rcases List.mem_cons.mp hb' with rfl | hb'
          · exact Nat.le_refl _
          · exact Nat.le_of_lt (ha b' hb')
        · exact ⟨a', List.mem_cons_of_mem a ha', b', List.mem_cons_of_mem a hb',
            hab, habp, hbc, hcT, rfl⟩
      · rintro ⟨a', ha', b', hb', hab, habp, hbc, hcT, rfl⟩
        rcases List.mem_cons.mp ha' with rfl | ha'
        · exact Or.inl ⟨b', hb', habp, hbc, hcT, rfl⟩
        · refine Or.inr ?_
          rcases List.mem_cons.mp hb' with hb1 | hb'
          · have := ha a' ha'
            omega
          · exact ⟨a', ha', b', hb', hab, habp, hbc, hcT, rfl⟩

theorem innerLoop_nodup {T : List Nat} {p a : Nat} :
    ∀ {bs : List Nat}, bs.Pairwise (· < ·) → (innerLoop T p a bs).Nodup := by
  intro bs
  induction bs with
  | nil => intro _; simp [innerLoop]
  | cons b rest ih =>
    intro hpw
    have hpwc := List.pairwise_cons.mp hpw
    obtain ⟨hb, hrest⟩ := hpwc
    simp only [innerLoop]
    split_ifs with h1 h2 h3
    · exact List.nodup_nil
    · exact List.nodup_nil
    · rw [List.nodup_cons]
      refine ⟨?_, ih hrest⟩
      intro hmem
      obtain ⟨b', hb', _, _, _, heq⟩ := (mem_innerLoop hrest).mp hmem
      have : b = b' := congrArg (fun t : Room => t.2.1) heq
      have := hb b' hb'
      omega
    · exact ih hrest

theorem tripleLoop_nodup {T : List Nat} {p : Nat} :
    ∀ {L : List Nat}, L.Pairwise (· < ·) → (tripleLoop T p L).Nodup := by
  intro L
  induction L with
  | nil => intro _; simp [tripleLoop]
  | cons a rest ih =>
    intro hpw
    have hpwc := List.pairwise_cons.mp hpw
    obtain ⟨ha, hrest⟩ := hpwc
    simp only [tripleLoop]
    split_ifs with h1
    · exact List.nodup_nil
    · refine List.Nodup.append (innerLoop_nodup hpw) (ih hrest) ?_
      rw [List.disjoint_left]
      intro x hx hx'
      obtain ⟨b', _, _, _, _, rfl⟩ := (mem_innerLoop hpw).mp hx
      obtain ⟨a', ha', _, _, _, _, _, _, heq⟩ := (mem_tripleLoop hrest).mp hx'
      have : a = a' := congrArg (fun t : Room => t.1) heq
      have := ha a' ha'
      omega

/-! ### Characterisation of the door computation -/

theorem doors_out_of_eq_some {T : List Nat} {r : Room} {t : Nat} {la lb lc : List Nat}
    (h1 : neighbours T r.1 = some la) (h2 : neighbours T r.2.1 = some lb)
    (h3 : neighbours T r.2.2 = some lc) :
    doors_out_of T r t =
      some ((la.flatMap fun aa => lb.flatMap fun bb => lc.filterMap fun cc =>
        if aa + bb + cc = t then some (sort3 (aa, bb, cc)) else none).foldl
          (fun acc d => insert_door d acc) []) := by
  unfold doors_out_of
  rw [h1, h2, h3]

/-- Membership in a computed door list: exactly the sorted images of the
candidate triples drawn from the three neighbour lists that hit the
target sum. -/
theorem mem_doors_out_of {T : List Nat} {r : Room} {t : Nat} {la lb lc : List Nat}
    {ds : List Room} (h1 : neighbours T r.1 = some la) (h2 : neighbours T r.2.1 = some lb)
    (h3 : neighbours T r.2.2 = some lc) (hds : doors_out_of T r t = some ds) {d : Room} :
    d ∈ ds ↔ ∃ aa ∈ la, ∃ bb ∈ lb, ∃ cc ∈ lc, aa + bb + cc = t ∧ d = sort3 (aa, bb, cc) := by
  rw [doors_out_of_eq_some h1 h2 h3] at hds
  injection hds with hds
  subst hds
  rw [mem_foldl_insert]
  simp only [List.not_mem_nil, false_or, List.mem_flatMap, List.mem_filterMap]
  constructor
  · rintro ⟨aa, haa, bb, hbb, cc, hcc, hif⟩
    by_cases hsum : aa + bb + cc = t
    · rw [if_pos hsum] at hif
      exact ⟨aa, haa, bb, hbb, cc, hcc, hsum, (Option.some.inj hif).symm⟩
    · rw [if_neg hsum] at hif
      exact absurd hif (by simp)
  · rintro ⟨aa, haa, bb, hbb, cc, hcc, hsum, rfl⟩
    exact ⟨aa, haa, bb, hbb, cc, hcc, by rw [if_pos hsum]⟩

/-- Every computed door list is strictly sorted in `lexLt`. -/
theorem doors_out_of_sorted {T : List Nat} {r : Room} {t : Nat} {ds : List Room}
    (hds : doors_out_of T r t = some ds) : ds.Pairwise (fun u v => lexLt u v = true) := by
  unfold doors_out_of at hds
  rcases e1 : neighbours T r.1 with _ | la <;> rw [e1] at hds
  · exact absurd hds (by simp)
  rcases e2 : neighbours T r.2.1 with _ | lb <;> rw [e2] at hds
  · exact absurd hds (by simp)
  rcases e3 : neighbours T r.2.2 with _ | lc <;> rw [e3] at hds
  · exact absurd hds (by simp)
  injection hds with hds
  subst hds
  exact pairwise_foldl_insert _ List.Pairwise.nil

/-! ### Characterisation of `build_row` -/

theorem attach_doors_eq_some {T : List Nat} {nxt : Nat} :
    ∀ {l : List Room}, (∀ r ∈ l, ∃ ds, doors_out_of T r nxt = some ds) →
      ∃ row, attach_doors T nxt l = some row ∧ row.map Prod.fst = l := by
  intro l
  induction l with
  | nil => intro _; exact ⟨[], rfl, rfl⟩
  | cons r rest ih =>
    intro hall
    obtain ⟨ds, hds⟩ := hall r (List.mem_cons_self r rest)
    obtain ⟨row, hrow, hmap⟩ := ih (fun r' hr' => hall r' (List.mem_cons_of_mem r hr'))
    refine ⟨(r, ds) :: row, ?_, by simp [hmap]⟩
    simp only [attach_doors]
    rw [hds, hrow]

theorem mem_attach_doors {T : List Nat} {nxt : Nat} :
    ∀ {l : List Room} {row : List (Room × List Room)}, attach_doors T nxt l = some row →
      ∀ {r : Room} {ds : List Room},
        ((r, ds) ∈ row ↔ r ∈ l ∧ doors_out_of T r nxt = some ds) := by
  intro l
  induction l with
  | nil =>
    intro row hrow r ds
    injection hrow with h
    subst h
    simp
  | cons r0 rest ih =>
    intro row hrow r ds
    rw [attach_doors] at hrow
    rcases e0 : doors_out_of T r0 nxt with _ | ds0 <;> rw [e0] at hrow
    · exact absurd hrow (by simp)
    rcases e1 : attach_doors T nxt rest with _ | row' <;> rw [e1] at hrow
    · exact absurd hrow (by simp)
    injection hrow with h
    subst h
    rw [List.mem_cons, ih e1]
    constructor
    · rintro (heq | ⟨hr, hds⟩)
      · have hr : r = r0 := congrArg Prod.fst heq
        have hd : ds = ds0 := congrArg Prod.snd heq
        subst hr
        subst hd
        exact ⟨List.mem_cons_self r rest, e0⟩
      · exact ⟨List.mem_cons_of_mem r0 hr, hds⟩
    · rintro ⟨hr, hds⟩
      rcases List.mem_cons.mp hr with rfl | hr
      · rw [e0] at hds
        injection hds with h
        subst h
        exact Or.inl rfl
      · exact Or.inr ⟨hr, hds⟩

theorem build_row_eq_none {T : List Nat} {p : Nat} (h : p ∉ T) : build_row T p = none := by
  unfold build_row
  rw [next_prime_eq_none h]

theorem build_row_of_no_next {T : List Nat} {p : Nat} (h : next_prime T p = some none) :
    build_row T p = some ([], none) := by
  unfold build_row
  rw [h]

/-- On a strictly increasing table containing `2`, `build_row` succeeds
for any `p` with a successor, its rooms are exactly the triples enumerated
by `tripleLoop`, and membership of `(r, ds)` in the row is equivalent to
`r` being enumerated with computed doors `ds`. -/
theorem build_row_of_next {T : List Nat} (hT : T.Pairwise (· < ·)) (h2 : 2 ∈ T) {p nxt : Nat}
    (h : next_prime T p = some (some nxt)) :
    ∃ row, build_row T p = some (row, some nxt) ∧ row.map Prod.fst = tripleLoop T p T ∧
      ∀ r ds, ((r, ds) ∈ row ↔ r ∈ tripleLoop T p T ∧ doors_out_of T r nxt = some ds) := by
  have hnd : T.Nodup := hT.imp Nat.ne_of_lt
  have hall : ∀ r ∈ tripleLoop T p T, ∃ ds, doors_out_of T r nxt = some ds := by
    intro r hr
    obtain ⟨a, ha, b, hb, hab, habp, hbc, hcT, rfl⟩ := (mem_tripleLoop hT).mp hr
    obtain ⟨la, hla, _⟩ := neighbours_spec hnd h2 ha
    obtain ⟨lb, hlb, _⟩ := neighbours_spec hnd h2 hb
    obtain ⟨lc, hlc, _⟩ := neighbours_spec hnd h2 hcT
    exact ⟨_, doors_out_of_eq_some hla hlb hlc⟩
  obtain ⟨row, hrow, hmap⟩ := attach_doors_eq_some hall
  refine ⟨row, ?_, hmap, fun r ds => mem_attach_doors hrow⟩
  unfold build_row
  rw [h]
  dsimp only
  rw [hrow]

/-! ### Walk loop invariants -/

/-- Invariant of the leftmost-walk loop on a well-formed table: starting
from a table layer it always returns, the segment it appends starts with
the current room, and it appends at most `ms + 1 - steps` entries. -/
theorem leftmost_loop_spec {T : List Nat} (hT : T.Pairwise (· < ·)) (h2 : 2 ∈ T) {ms : Nat} :
    ∀ (fuel : Nat) (p : Nat) (h : Room) (path : List (Nat × Room)) (steps : Nat),
      p ∈ T → steps ≤ ms → ms + 1 ≤ steps + fuel →
      ∃ ext st, leftmost_loop T ms fuel p h path steps = some (path ++ ext, st) ∧
        ext.head? = some (p, h) ∧ ext.length ≤ ms + 1 - steps := by
  intro fuel
  induction fuel with
  | zero =>
    intro p h path steps _ hle hfuel
    omega
  | succ fuel ih =>
    intro p h path steps hp hle hfuel
    simp only [leftmost_loop]
    by_cases hcap : steps + 1 > ms
    · rw [if_pos hcap]
      exact ⟨[(p, h)], "max_steps", rfl, rfl, by simp; omega⟩
    · rw [if_neg hcap]
      have hnd : T.Nodup := hT.imp Nat.ne_of_lt
      obtain ⟨o, ho⟩ := next_prime_isSome hnd hp
      cases o with
      | none =>
        rw [build_row_of_no_next ho]
        exact ⟨[(p, h)], "no_next_prime", rfl, rfl, by simp; omega⟩
      | some nxt =>
        obtain ⟨row, hrow, _, _⟩ := build_row_of_next hT h2 ho
        rw [hrow]
        dsimp only
        cases hfd : find_doors h row with
        | none =>
          exact ⟨[(p, h)], "h_not_found", rfl, rfl, by simp; omega⟩
        | some doors =>
          cases doors with
          | nil => exact ⟨[(p, h)], "dead_end", rfl, rfl, by simp; omega⟩
          | cons d drest =>
            have hnxt : nxt ∈ T := next_prime_mem ho
            obtain ⟨ext, st, hloop, hhead, hlen⟩ :=
              ih nxt d (path ++ [(p, h)]) (steps + 1) hnxt (by omega) (by omega)
            dsimp only
            refine ⟨(p, h) :: ext, st, ?_, rfl, ?_⟩
            · rw [hloop, List.append_assoc, List.singleton_append]
            · simp only [List.length_cons]
              omega

/-- Invariant of the random-walk loop, identical in shape to
`leftmost_loop_spec`, for any choice function. -/
theorem random_loop_spec {T : List Nat} (hT : T.Pairwise (· < ·)) (h2 : 2 ∈ T)
    (choice : List Room → Room) {ms : Nat} :
    ∀ (fuel : Nat) (p : Nat) (h : Room) (path : List (Nat × Room)) (steps : Nat),
      p ∈ T → steps ≤ ms → ms + 1 ≤ steps + fuel →
      ∃ ext st, random_loop T choice ms fuel p h path steps = some (path ++ ext, st) ∧
        ext.head? = some (p, h) ∧ ext.length ≤ ms + 1 - steps := by
  intro fuel
  induction fuel with
  | zero =>
    intro p h path steps _ hle hfuel
    omega
  | succ fuel ih =>
    intro p h path steps hp hle hfuel
    simp only [random_loop]
    by_cases hcap : steps + 1 > ms
    · rw [if_pos hcap]
      exact ⟨[(p, h)], "max_steps", rfl, rfl, by simp; omega⟩
    · rw [if_neg hcap]
      have hnd : T.Nodup := hT.imp Nat.ne_of_lt
      obtain ⟨o, ho⟩ := next_prime_isSome hnd hp
      cases o with
      | none =>
        rw [build_row_of_no_next ho]
        exact ⟨[(p, h)], "no_next_prime", rfl, rfl, by simp; omega⟩
      | some nxt =>
        obtain ⟨row, hrow, _, _⟩ := build_row_of_next hT h2 ho
        rw [hrow]
        dsimp only
        cases hfd : find_doors h row with
        | none =>
          exact ⟨[(p, h)], "h_not_found", rfl, rfl, by simp; omega⟩
        | some doors =>
          cases doors with
          | nil => exact ⟨[(p, h)], "dead_end", rfl, rfl, by simp; omega⟩
          | cons d drest =>
            have hnxt : nxt ∈ T := next_prime_mem ho
            obtain ⟨ext, st, hloop, hhead, hlen⟩ :=
              ih nxt (choice (d :: drest)) (path ++ [(p, h)]) (steps + 1) hnxt
                (by omega) (by omega)
            dsimp only
            refine ⟨(p, h) :: ext, st, ?_, rfl, ?_⟩
            · rw [hloop, List.append_assoc, List.singleton_append]
            · simp only [List.length_cons]
              omega

/-- The successor lookup at a maximal table entry runs off the end of the
table and returns the in-band `None`. -/
theorem next_prime_of_max {p : Nat} (hp : p ∈ PRIMES) (hmax : ∀ q ∈ PRIMES, q ≤ p) :
    next_prime PRIMES p = some none := by
  obtain ⟨i, hi⟩ := List.mem_iff_getElem?.mp hp
  have hlast : PRIMES[i + 1]? = none := by
    rcases e : PRIMES[i + 1]? with _ | q
    · rfl
    · have hq : q ∈ PRIMES := List.mem_iff_getElem?.mpr ⟨i + 1, e⟩
      obtain ⟨hilen, hpi⟩ := List.getElem?_eq_some_iff.mp hi
      obtain ⟨hjlen, hqj⟩ := List.getElem?_eq_some_iff.mp e
      have hlt := List.pairwise_iff_getElem.mp PRIMES_sorted i (i + 1) hilen hjlen (by omega)
      rw [hpi, hqj] at hlt
      have := hmax q hq
      omega
  have := next_prime_eq PRIMES_nodup hi
  rw [hlast] at this
  exact this

/-! ### Claims -/

/-- Claim C1, amended: for every prime `p` in the table whose successor
`q` itself has a successor `r`, every door of every room of the row built
at `p` resolves to a room that exists in the row built at `q`.  (The
original claim also included the case where `q` is the largest table
prime; there the row at `q` is empty by the soft-fail of `build_row`, and
every door at layer `p` dangles — see the counterexample.) -/
theorem C1_no_dangling_doors {p q r : Nat}
    (hpq : next_prime PRIMES p = some (some q)) (hqr : next_prime PRIMES q = some (some r)) :
    ∀ row, build_row PRIMES p = some (row, some q) →
      ∀ h ds d, (h, ds) ∈ row → d ∈ ds →
        ∃ row2, build_row PRIMES q = some (row2, some r) ∧ ∃ ds2, (d, ds2) ∈ row2 := by
  intro row hrow h ds d hmem hd
  obtain ⟨row', hrow', hmap', hiff'⟩ := build_row_of_next PRIMES_sorted two_mem_PRIMES hpq
  rw [hrow'] at hrow
  injection hrow with hrow
  have hroweq : row' = row := congrArg Prod.fst hrow
  subst hroweq
  obtain ⟨htrip, hds⟩ := (hiff' h ds).mp hmem
  obtain ⟨a, ha, b, hb, hab, habp, hbc, hcT, hheq⟩ := (mem_tripleLoop PRIMES_sorted).mp htrip
  subst hheq
  obtain ⟨la, hla, hlaT⟩ := neighbours_spec PRIMES_nodup two_mem_PRIMES ha
  obtain ⟨lb, hlb, hlbT⟩ := neighbours_spec PRIMES_nodup two_mem_PRIMES hb
  obtain ⟨lc, hlc, hlcT⟩ := neighbours_spec PRIMES_nodup two_mem_PRIMES hcT
  obtain ⟨aa, haa, bb, hbb, cc, hcc, hsum, rfl⟩ :=
    (mem_doors_out_of hla hlb hlc hds).mp hd
  have hs := sort3_sorted (aa, bb, cc)
  have hsum3 := sort3_sum (aa, bb, cc)
  have hcs := sort3_coords (aa, bb, cc)
  have hd1 : (sort3 (aa, bb, cc)).1 ∈ PRIMES := by
    rcases hcs.1 with he | he | he <;> rw [he]
    · exact hlaT aa haa
    · exact hlbT bb hbb
    · exact hlcT cc hcc
  have hd2 : (sort3 (aa, bb, cc)).2.1 ∈ PRIMES := by
    rcases hcs.2.1 with he | he | he <;> rw [he]
    · exact hlaT aa haa
    · exact hlbT bb hbb
    · exact hlcT cc hcc
  have hd3 : (sort3 (aa, bb, cc)).2.2 ∈ PRIMES := by
    rcases hcs.2.2 with he | he | he <;> rw [he]
    · exact hlaT aa haa
    · exact hlbT bb hbb
    · exact hlcT cc hcc
  have hdsum :
      (sort3 (aa, bb, cc)).1 + (sort3 (aa, bb, cc)).2.1 + (sort3 (aa, bb, cc)).2.2 = q := by
    rw [hsum3]; exact hsum
  have hdtrip : sort3 (aa, bb, cc) ∈ tripleLoop PRIMES q PRIMES := by
    rw [mem_tripleLoop PRIMES_sorted]
    refine ⟨(sort3 (aa, bb, cc)).1, hd1, (sort3 (aa, bb, cc)).2.1, hd2, hs.1,
      by omega, by omega, ?_, ?_⟩
    · have he : q - (sort3 (aa, bb, cc)).1 - (sort3 (aa, bb, cc)).2.1 =
          (sort3 (aa, bb, cc)).2.2 := by omega
      rw [he]
      exact hd3
    · have he : q - (sort3 (aa, bb, cc)).1 - (sort3 (aa, bb, cc)).2.1 =
          (sort3 (aa, bb, cc)).2.2 := by omega
      rw [he]
  obtain ⟨row2, hrow2, hmap2, hiff2⟩ := build_row_of_next PRIMES_sorted two_mem_PRIMES hqr
  obtain ⟨la2, hla2, _⟩ := neighbours_spec PRIMES_nodup two_mem_PRIMES hd1
  obtain ⟨lb2, hlb2, _⟩ := neighbours_spec PRIMES_nodup two_mem_PRIMES hd2
  obtain ⟨lc2, hlc2, _⟩ := neighbours_spec PRIMES_nodup two_mem_PRIMES hd3
  exact ⟨row2, hrow2, _,
    (hiff2 (sort3 (aa, bb, cc)) _).mpr ⟨hdtrip, doors_out_of_eq_some hla2 hlb2 hlc2⟩⟩

/-- Claim C1, witness: the single door of room `(2, 2, 3)` at layer `7`
resolves in the row built at layer `11`. -/
theorem C1_witness :
    ∃ row2, build_row PRIMES 11 = some (row2, some 13) ∧ ∃ ds2, ((3, 3, 5), ds2) ∈ row2 :=
  @C1_no_dangling_doors 7 11 13 (by rw [PRIMES_eq]; decide) (by rw [PRIMES_eq]; decide)
    [((2, 2, 3), [(3, 3, 5)])] (by rw [PRIMES_eq]; decide)
    (2, 2, 3) [(3, 3, 5)] (3, 3, 5) (by decide) (by decide)

/-- Claim C1, counterexample: at `p = 1997` the successor is `1999`, the
largest table prime, so `build_row 1999` soft-fails to the empty row; the
room `(3, 997, 997)` at layer `1997` has the door `(5, 997, 997)`, which
resolves to no room of that empty row — the claim fails in exactly the
"next(p) is the largest prime" case it includes. -/
theorem C1_counterexample :
    build_row PRIMES 1999 = some ([], none) ∧
    ∃ row, build_row PRIMES 1997 = some (row, some 1999) ∧
      ((3, 997, 997), [(5, 997, 997)]) ∈ row ∧
      ∀ row2 onxt2, build_row PRIMES 1999 = some (row2, onxt2) →
        ∀ ds2, ((5, 997, 997), ds2) ∉ row2 := by
  have h99 : build_row PRIMES 1999 = some ([], none) := by rw [PRIMES_eq]; decide
  have hnp : next_prime PRIMES 1997 = some (some 1999) := by rw [PRIMES_eq]; decide
  obtain ⟨row, hrow, hmap, hiff⟩ := build_row_of_next PRIMES_sorted two_mem_PRIMES hnp
  refine ⟨h99, row, hrow, ?_, ?_⟩
  · exact (hiff (3, 997, 997) [(5, 997, 997)]).mpr
      ⟨by rw [PRIMES_eq]; decide, by rw [PRIMES_eq]; decide⟩
  · intro row2 onxt2 h2' ds2
    rw [h99] at h2'
    injection h2' with h2'
    have : ([] : List (Room × List Room)) = row2 := congrArg Prod.fst h2'
    rw [← this]
    exact List.not_mem_nil _

/-- Claim C2, amended: the leftmost walk from layer `7`, room `(2, 2, 3)`,
with `max_steps = 1` returns a path of length two — the start room and the
room `(11, (3, 3, 5))` reached through its single door — with terminal
status `max_steps` (the room has a door, so the walk advances once and
then hits the cap; there is no `advancing` status in the code). -/
theorem C2_walk_one_step :
    leftmost_walk PRIMES 7 (2, 2, 3) 1 =
      some ([(7, (2, 2, 3)), (11, (3, 3, 5))], "max_steps") := by
  rw [PRIMES_eq]; decide

/-- Claim C2, counterexample: the walk's result path has length `2`, not
`1`, and its status is `max_steps`, not `advancing` or `dead_end`. -/
theorem C2_counterexample :
    leftmost_walk PRIMES 7 (2, 2, 3) 1 =
      some ([(7, (2, 2, 3)), (11, (3, 3, 5))], "max_steps") ∧
    ([(7, (2, 2, 3)), (11, (3, 3, 5))] : List (Nat × Room)).length ≠ 1 :=
  ⟨by rw [PRIMES_eq]; decide, by decide⟩

/-- Claim C3: for every prime `p` in the table that has a successor, the
rooms of `build_row p` are exactly the ascending triples of table entries
summing to `p`, and they are pairwise distinct in canonical (ascending)
form. -/
theorem C3_row_exactly_ascending_triples {p nxt : Nat}
    (h : next_prime PRIMES p = some (some nxt)) :
    ∃ row, build_row PRIMES p = some (row, some nxt) ∧
      (∀ t : Room, (∃ ds, (t, ds) ∈ row) ↔
        (t.1 ∈ PRIMES ∧ t.2.1 ∈ PRIMES ∧ t.2.2 ∈ PRIMES ∧
          t.1 ≤ t.2.1 ∧ t.2.1 ≤ t.2.2 ∧ t.1 + t.2.1 + t.2.2 = p)) ∧
      (row.map Prod.fst).Nodup := by
  obtain ⟨row, hrow, hmap, hiff⟩ := build_row_of_next PRIMES_sorted two_mem_PRIMES h
  refine ⟨row, hrow, ?_, ?_⟩
  · intro t
    constructor
    · rintro ⟨ds, hds⟩
      have htrip := ((hiff t ds).mp hds).1
      obtain ⟨a, ha, b, hb, hab, habp, hbc, hcT, rfl⟩ :=
        (mem_tripleLoop PRIMES_sorted).mp htrip
      exact ⟨ha, hb, hcT, hab, hbc, show a + b + (p - a - b) = p by omega⟩
    · rintro ⟨h1, h2', h3, h4, h5, h6⟩
      have hce : p - t.1 - t.2.1 = t.2.2 := by omega
      have htrip : t ∈ tripleLoop PRIMES p PRIMES := by
        rw [mem_tripleLoop PRIMES_sorted]
        refine ⟨t.1, h1, t.2.1, h2', h4, by omega, by omega, ?_, ?_⟩
        · rw [hce]; exact h3
        · rw [hce]
      obtain ⟨la, hla, _⟩ := neighbours_spec PRIMES_nodup two_mem_PRIMES h1
      obtain ⟨lb, hlb, _⟩ := neighbours_spec PRIMES_nodup two_mem_PRIMES h2'
      obtain ⟨lc, hlc, _⟩ := neighbours_spec PRIMES_nodup two_mem_PRIMES h3
      exact ⟨_, (hiff t _).mpr ⟨htrip, doors_out_of_eq_some hla hlb hlc⟩⟩
  · rw [hmap]
    exact tripleLoop_nodup PRIMES_sorted

/-- Claim C3, witness: instantiated at `p = 7` (successor `11`). -/
theorem C3_witness :
    ∃ row, build_row PRIMES 7 = some (row, some 11) ∧
      (∀ t : Room, (∃ ds, (t, ds) ∈ row) ↔
        (t.1 ∈ PRIMES ∧ t.2.1 ∈ PRIMES ∧ t.2.2 ∈ PRIMES ∧
          t.1 ≤ t.2.1 ∧ t.2.1 ≤ t.2.2 ∧ t.1 + t.2.1 + t.2.2 = 7)) ∧
      (row.map Prod.fst).Nodup :=
  C3_row_exactly_ascending_triples (by rw [PRIMES_eq]; decide)

/-- Claim C4: in every row `build_row` produces, every room's door list is
strictly sorted in the lexicographic order on triples and therefore free
of duplicates. -/
theorem C4_door_lists_sorted {p : Nat} {row : List (Room × List Room)} {onxt : Option Nat}
    (hrow : build_row PRIMES p = some (row, onxt)) :
    ∀ h ds, (h, ds) ∈ row → ds.Pairwise (fun u v => lexLt u v = true) ∧ ds.Nodup := by
  intro h ds hmem
  unfold build_row at hrow
  rcases e : next_prime PRIMES p with _ | o <;> rw [e] at hrow
  · exact absurd hrow (by simp)
  rcases o with _ | nxt
  · dsimp only at hrow
    injection hrow with hrow
    have : ([] : List (Room × List Room)) = row := congrArg Prod.fst hrow
    rw [← this] at hmem
    exact absurd hmem (List.not_mem_nil _)
  · dsimp only at hrow
    rcases e2 : attach_doors PRIMES nxt (tripleLoop PRIMES p PRIMES) with _ | row' <;>
      rw [e2] at hrow
    · exact absurd hrow (by simp)
    · dsimp only at hrow
      injection hrow with hrow
      have hre : row' = row := congrArg Prod.fst hrow
      subst hre
      have hds := ((mem_attach_doors e2).mp hmem).2
      have hsorted := doors_out_of_sorted hds
      exact ⟨hsorted, hsorted.imp fun hlt => lexLt_ne hlt⟩

/-- Claim C4, witness: the door list of room `(2, 2, 3)` in the row at
`p = 7`. -/
theorem C4_witness :
    ([(3, 3, 5)] : List Room).Pairwise (fun u v => lexLt u v = true) ∧
    ([(3, 3, 5)] : List Room).Nodup :=
  @C4_door_lists_sorted 7 [((2, 2, 3), [(3, 3, 5)])] (some 11) (by rw [PRIMES_eq]; decide)
    (2, 2, 3) [(3, 3, 5)] (by decide)

/-- Claim C5: in the loop body of `depth_first_explore`, a door whose
target layer is `None` or beyond the `max_prime` ceiling is treated as a
wall: the step counter increments and the door index advances, but no
frame is pushed and the stack, node count and depth high-water mark are
otherwise unchanged. -/
theorem C5_wall_step (T : List Nat) (max_prime : Option Nat) (fr : Frame) (rest : List Frame)
    (steps nodes depth : Nat) (hdoor : fr.i < fr.doors.length)
    (hwall : fr.nxt = none ∨ ∃ m q, max_prime = some m ∧ fr.nxt = some q ∧ m < q) :
    dfsStep T max_prime fr rest steps nodes depth =
      some ({ fr with i := fr.i + 1 } :: rest, steps + 1, nodes, depth) := by
  unfold dfsStep
  rw [if_pos hdoor]
  rcases hwall with hn | ⟨m, q, hm, hq, hlt⟩
  · rw [hn]
  · rw [hq, hm]
    dsimp only
    rw [if_pos (decide_eq_true hlt)]

/-- Claim C5, witness: a concrete wall transition (ceiling `29`, door
target layer `31`). -/
theorem C5_witness :
    dfsStep PRIMES (some 29) ⟨29, (3, 7, 19), some 31, [(3, 7, 23)], 0⟩ [] 5 3 2 =
      some ([⟨29, (3, 7, 19), some 31, [(3, 7, 23)], 1⟩], 6, 3, 2) :=
  C5_wall_step PRIMES (some 29) ⟨29, (3, 7, 19), some 31, [(3, 7, 23)], 0⟩ [] 5 3 2
    (by decide) (Or.inr ⟨29, 31, rfl, rfl, by decide⟩)

/-- Claim C6: for the largest prime of the table (no successor exists),
`build_row` fails softly, returning the empty row and `None` — not an
exception. -/
theorem C6_edge_soft_fail {p : Nat} (hp : p ∈ PRIMES) (hmax : ∀ q ∈ PRIMES, q ≤ p) :
    build_row PRIMES p = some ([], none) :=
  build_row_of_no_next (next_prime_of_max hp hmax)

/-- Claim C6, witness: at the largest table prime `1999`. -/
theorem C6_witness : build_row PRIMES 1999 = some ([], none) :=
  C6_edge_soft_fail (by rw [PRIMES_eq]; decide) (by rw [PRIMES_eq]; decide)

/-- Claim C7, amended: constructing the prime table with a ceiling below
`2` does not fail — `primes_up_to` is total and simply returns the empty
table (there is no `InvalidCeiling` error anywhere in the code). -/
theorem C7_small_ceiling_empty : ∀ n, n < 2 → primes_up_to n = [] := by
  intro n h
  unfold primes_up_to
  rw [if_pos h]

/-- Claim C7, counterexample: at ceiling `1` the construction returns the
empty table; being a total function of its input, it raises nothing,
contradicting the claimed `InvalidCeiling` failure. -/
theorem C7_counterexample : primes_up_to 1 = [] := rfl

/-- Claim C7, witness for the amended claim, at ceiling `0`. -/
theorem C7_witness : primes_up_to 0 = [] := C7_small_ceiling_empty 0 (by decide)

/-- Claim C8: `prev_prime 2 = 2` (saturating); `next_prime` of the table
maximum is the in-band `None`; and on adjacent table slots `i`, `i + 1`,
`next_prime` of the entry at `i` is the entry at `i + 1` and `prev_prime`
of the entry at `i + 1` is the entry at `i`. -/
theorem C8_pred_succ_adjacent :
    prev_prime PRIMES 2 = some 2 ∧
    (∀ p, p ∈ PRIMES → (∀ q ∈ PRIMES, q ≤ p) → next_prime PRIMES p = some none) ∧
    (∀ i p q, PRIMES[i]? = some p → PRIMES[i + 1]? = some q →
      next_prime PRIMES p = some (some q)) ∧
    (∀ i p q, PRIMES[i]? = some q → PRIMES[i + 1]? = some p → p ≠ 2 →
      prev_prime PRIMES p = some q) := by
  refine ⟨rfl, ?_, ?_, ?_⟩
  · intro p hp hmax
    exact next_prime_of_max hp hmax
  · intro i p q hi hq
    have h := next_prime_eq PRIMES_nodup hi
    rw [hq] at h
    exact h
  · intro i p q hq hp hne
    unfold prev_prime
    rw [if_neg hne, findIdx?_of_getElem? PRIMES_nodup hp]
    dsimp only
    have h0 : ¬(i + 1 = 0) := by omega
    rw [if_neg h0, Nat.add_sub_cancel, List.getD_eq_getElem?_getD, hq]
    rfl

/-- Claim C8, witness: successor of `2` is `3`, predecessor of `3` is `2`,
successor of the largest table prime `1999` is `None`. -/
theorem C8_witness :
    next_prime PRIMES 2 = some (some 3) ∧ prev_prime PRIMES 3 = some 2 ∧
    next_prime PRIMES 1999 = some none :=
  ⟨C8_pred_succ_adjacent.2.2.1 0 2 3 (by rw [PRIMES_eq]; rfl) (by rw [PRIMES_eq]; rfl),
   C8_pred_succ_adjacent.2.2.2 0 3 2 (by rw [PRIMES_eq]; rfl) (by rw [PRIMES_eq]; rfl)
     (by decide),
   C8_pred_succ_adjacent.2.1 1999 (by rw [PRIMES_eq]; decide) (by rw [PRIMES_eq]; decide)⟩

/-- Claim C9: for any `n` not in the prime table (composite, below 2, or
above the ceiling), `build_row` does not return a result: the
`PRIME_INDEX[n]` lookup inside `next_prime` raises, so the embedded
function yields `none` rather than an empty row. -/
theorem C9_build_row_raises_off_table {n : Nat} (h : n ∉ PRIMES) :
    build_row PRIMES n = none :=
  build_row_eq_none h

/-- Claim C9, witness: at the composite `4`. -/
theorem C9_witness : build_row PRIMES 4 = none :=
  C9_build_row_raises_off_table (by rw [PRIMES_eq]; decide)

/-- Claim C10, amended: for every start layer that is present in the
table, every start room, every choice function and every `max_steps ≥ 1`,
both walks return a non-empty path that starts with
`(start_p, start_room)` and has at most `max_steps + 1` entries.  (The
original claim ranged over every start layer; a layer outside the table
makes `build_row` raise inside the walk, so nothing is returned — see the
counterexample.) -/
theorem C10_walk_paths (choice : List Room → Room) (p : Nat) (h : Room) (ms : Nat)
    (hp : p ∈ PRIMES) (hms : 1 ≤ ms) :
    (∃ path st, leftmost_walk PRIMES p h ms = some (path, st) ∧
      path.head? = some (p, h) ∧ path ≠ [] ∧ path.length ≤ ms + 1) ∧
    (∃ path st, random_walk PRIMES choice p h ms = some (path, st) ∧
      path.head? = some (p, h) ∧ path ≠ [] ∧ path.length ≤ ms + 1) := by
  constructor
  · obtain ⟨ext, st, hloop, hhead, hlen⟩ :=
      @leftmost_loop_spec PRIMES PRIMES_sorted two_mem_PRIMES ms (ms + 1) p h [] 0 hp
        (by omega) (by omega)
    refine ⟨ext, st, ?_, hhead, ?_, by omega⟩
    · unfold leftmost_walk
      rw [hloop, List.nil_append]
    · intro hnil
      rw [hnil] at hhead
      exact absurd hhead (by simp)
  · obtain ⟨ext, st, hloop, hhead, hlen⟩ :=
      @random_loop_spec PRIMES PRIMES_sorted two_mem_PRIMES choice ms (ms + 1) p h [] 0 hp
        (by omega) (by omega)
    refine ⟨ext, st, ?_, hhead, ?_, by omega⟩
    · unfold random_walk
      rw [hloop, List.nil_append]
    · intro hnil
      rw [hnil] at hhead
      exact absurd hhead (by simp)

/-- Claim C10, witness: instantiated at layer `7`, room `(2, 2, 3)`,
`max_steps = 1`, with a head-choosing random source. -/
theorem C10_witness :
    (∃ path st, leftmost_walk PRIMES 7 (2, 2, 3) 1 = some (path, st) ∧
      path.head? = some (7, (2, 2, 3)) ∧ path ≠ [] ∧ path.length ≤ 1 + 1) ∧
    (∃ path st,
      random_walk PRIMES (fun l => l.headD (0, 0, 0)) 7 (2, 2, 3) 1 = some (path, st) ∧
      path.head? = some (7, (2, 2, 3)) ∧ path ≠ [] ∧ path.length ≤ 1 + 1) :=
  C10_walk_paths (fun l => l.headD (0, 0, 0)) 7 (2, 2, 3) 1
    (by rw [PRIMES_eq]; decide) (by decide)

/-- Claim C10, counterexample: from the start layer `4`, which is not in
the table, both walks raise inside `build_row` (embedded as `none`)
instead of returning a one-entry path. -/
theorem C10_counterexample :
    leftmost_walk PRIMES 4 (2, 2, 3) 5 = none ∧
    random_walk PRIMES (fun l => l.headD (0, 0, 0)) 4 (2, 2, 3) 5 = none :=
  ⟨by rw [PRIMES_eq]; decide, by rw [PRIMES_eq]; decide⟩
